import Mathlib

/-!
# Verification of the exchange-rate cache and refresh orchestrator

Shallow embedding of the core of the `Currency-rate` Go service:

* `MemoryCache` (Go `internal/cache`): a map from string keys to
  `CacheItem { Rate float64; ExpiresAt time.Time }`, with TTL expiry.
  The Go `map[string]CacheItem` is embedded as an association list in
  which `mapInsert` removes any previous binding before prepending the
  new one, so a key is bound at most once; `len` is list length.
* Rates (`float64` in Go) are embedded as `ℚ`: the verified operations
  only store, compare and return rates (no float arithmetic occurs on
  the code paths under verification), and every literal involved
  (`1.0`, `83.5`, `82.0`) is exact in both representations.
* Instants (`time.Time`) and durations (`time.Duration`) are embedded
  as `ℤ` (nanoseconds); `t1.After(t2)` is `t2 < t1`, and
  `now.Add(ttl)` is `now + ttl`.  Methods that call `time.Now()` take
  the current instant as an explicit argument.
-/

/-- Go `CacheItem`: a cached exchange rate together with its expiry instant. -/
structure CacheItem where
  rate : ℚ
  expiresAt : ℤ
  deriving DecidableEq, Repr

/-- Go map lookup `c.data[key]` on the association-list embedding. -/
def mapLookup (l : List (String × CacheItem)) (k : String) : Option CacheItem :=
  (l.find? (fun p => p.1 == k)).map Prod.snd

/-- Go map insertion `c.data[key] = v`: any previous binding for `key` is
removed, then the new binding is added, so keys stay unique. -/
def mapInsert (l : List (String × CacheItem)) (k : String) (v : CacheItem) :
    List (String × CacheItem) :=
  (k, v) :: l.filter (fun p => !(p.1 == k))

/-- Go `MemoryCache`: the entry map plus the TTL fixed at construction.
The `sync.RWMutex` has no counterpart: each operation is embedded as an
atomic function on the whole state, which is exactly what the
single-lock discipline of the source guarantees. -/
structure MemoryCache where
  data : List (String × CacheItem)
  ttl : ℤ
  deriving DecidableEq

/-- Go `NewMemoryCache(ttl)` (minus the background goroutine, which is
modelled by explicit `cleanupExpired` steps). -/
def emptyCache (ttl : ℤ) : MemoryCache := ⟨[], ttl⟩

/-- Go `MemoryCache.generateKey`: `from_to_latest` when the date is empty,
`from_to_date` otherwise. -/
def generateKey (f t d : String) : String :=
  if d = "" then f ++ "_" ++ t ++ "_latest"
  else f ++ "_" ++ t ++ "_" ++ d

/-- Go `MemoryCache.Get`: not-found if the key is absent or the entry is
past its expiry (`time.Now().After(item.ExpiresAt)`); otherwise the
stored rate.  The source performs no write on any path of `Get`. -/
def MemoryCache.Get (c : MemoryCache) (f t d : String) (now : ℤ) : ℚ × Bool :=
  match mapLookup c.data (generateKey f t d) with
  | none => (0, false)
  | some item => if item.expiresAt < now then (0, false) else (item.rate, true)

/-- Go `MemoryCache.Get` in state-passing form: the returned state is the
receiver unchanged, mirroring that the method body contains no write. -/
def MemoryCache.GetSt (c : MemoryCache) (f t d : String) (now : ℤ) :
    (ℚ × Bool) × MemoryCache :=
  (c.Get f t d now, c)

/-- Go `MemoryCache.Set`: upsert with `ExpiresAt = time.Now().Add(c.ttl)`. -/
def MemoryCache.Set (c : MemoryCache) (f t d : String) (rate : ℚ) (now : ℤ) :
    MemoryCache :=
  { c with data := mapInsert c.data (generateKey f t d) ⟨rate, now + c.ttl⟩ }

/-- Go `MemoryCache.Delete`. -/
def MemoryCache.Delete (c : MemoryCache) (f t d : String) : MemoryCache :=
  { c with data := c.data.filter (fun p => !(p.1 == generateKey f t d)) }

/-- Go `MemoryCache.Size`: `len(c.data)`. -/
def MemoryCache.Size (c : MemoryCache) : ℕ := c.data.length

/-- The result dictionary of Go `MemoryCache.GetStats`. -/
structure CacheStats where
  total_items : ℕ
  valid_items : ℕ
  expired_items : ℕ
  ttl_seconds : ℚ
  deriving DecidableEq, Repr

/-- Go `MemoryCache.GetStats`: one pass over the entries incrementing
either the valid or the expired counter, plus `len` and `ttl.Seconds()`. -/
def MemoryCache.GetStats (c : MemoryCache) (now : ℤ) : CacheStats :=
  let counts := c.data.foldl
    (fun (acc : ℕ × ℕ) p =>
      if p.2.expiresAt < now then (acc.1, acc.2 + 1) else (acc.1 + 1, acc.2))
    (0, 0)
  ⟨c.data.length, counts.1, counts.2, (c.ttl : ℚ) / 1000000000⟩

/-- One pass of the Go background goroutine `cleanupExpired`: delete every
entry with `now.After(item.ExpiresAt)`. -/
def MemoryCache.cleanupExpired (c : MemoryCache) (now : ℤ) : MemoryCache :=
  { c with data := c.data.filter (fun p => !(decide (p.2.expiresAt < now))) }

/-! ## Basic map lemmas -/

theorem mapLookup_insert_self (l : List (String × CacheItem)) (k : String)
    (v : CacheItem) : mapLookup (mapInsert l k v) k = some v := by
  simp [mapLookup, mapInsert, List.find?]

theorem find?_filter_ne (l : List (String × CacheItem)) (k k' : String)
    (h : k' ≠ k) :
    (l.filter (fun p => !(p.1 == k'))).find? (fun p => p.1 == k) =
      l.find? (fun p => p.1 == k) := by
  induction l with
  | nil => rfl
  | cons a l ih =>
    rcases a with ⟨ak, av⟩
    by_cases ha' : ak = k'
    · subst ha'
      have h2 : (ak == k) = false := by simpa using h
      simp [List.filter_cons, List.find?_cons, h2, ih]
    · have h1 : (ak == k') = false := by simpa using ha'
      by_cases hak : ak = k
      · have h2 : (ak == k) = true := by simpa using hak
        simp [List.filter_cons, List.find?_cons, h1, h2]
      · have h2 : (ak == k) = false := by simpa using hak
        simp [List.filter_cons, List.find?_cons, h1, h2, ih]

theorem mapLookup_insert_ne (l : List (String × CacheItem)) (k k' : String)
    (v : CacheItem) (h : k' ≠ k) :
    mapLookup (mapInsert l k' v) k = mapLookup l k := by
  have hk : (k' == k) = false := by simpa using h
  simp [mapLookup, mapInsert, List.find?, hk, find?_filter_ne l k k' h]

theorem eq_of_mem_nodup_keys {α : Type _} {l : List (String × α)}
    (hnd : (l.map Prod.fst).Nodup) {p q : String × α}
    (hp : p ∈ l) (hq : q ∈ l) (hk : p.1 = q.1) : p = q :=
  List.inj_on_of_nodup_map hnd hp hq hk

theorem filter_key_eq_single {α : Type _} {l : List (String × α)}
    (hnd : (l.map Prod.fst).Nodup) {p : String × α} (hp : p ∈ l) :
    l.filter (fun q => q.1 == p.1) = [p] := by
  induction l with
  | nil => cases hp
  | cons a l ih =>
    rw [List.map_cons, List.nodup_cons] at hnd
    rcases List.mem_cons.mp hp with hpa | hpl
    · subst hpa
      have hrest : l.filter (fun q => q.1 == p.1) = [] := by
        rw [List.filter_eq_nil_iff]
        intro q hq
        simp only [beq_iff_eq]
        intro hqk
        exact hnd.1 (hqk ▸ List.mem_map_of_mem Prod.fst hq)
      simp [List.filter_cons, hrest]
    · have hne : (a.1 == p.1) = false := by
        simp only [beq_eq_false_iff_ne, ne_eq]
        intro hak
        exact hnd.1 (hak ▸ List.mem_map_of_mem Prod.fst hpl)
      simp [List.filter_cons, hne, ih hnd.2 hpl]

theorem getStats_counts (l : List (String × CacheItem)) (now : ℤ) (a b : ℕ) :
    (l.foldl
      (fun (acc : ℕ × ℕ) p =>
        if p.2.expiresAt < now then (acc.1, acc.2 + 1) else (acc.1 + 1, acc.2))
      (a, b)).1 +
    (l.foldl
      (fun (acc : ℕ × ℕ) p =>
        if p.2.expiresAt < now then (acc.1, acc.2 + 1) else (acc.1 + 1, acc.2))
      (a, b)).2 = a + b + l.length := by
  induction l generalizing a b with
  | nil => simp
  | cons x l ih =>
    by_cases hx : x.2.expiresAt < now
    · simp only [List.foldl_cons, if_pos hx, List.length_cons]
      rw [ih]
      omega
    · simp only [List.foldl_cons, if_neg hx, List.length_cons]
      rw [ih]
      omega

/-- C4: for every cache state and every instant, the dictionary returned by
`GetStats` satisfies `valid_items + expired_items = total_items`. -/
theorem stats_valid_add_expired_eq_total (c : MemoryCache) (now : ℤ) :
    (c.GetStats now).valid_items + (c.GetStats now).expired_items =
      (c.GetStats now).total_items := by
  simpa [MemoryCache.GetStats] using getStats_counts c.data now 0 0

/-- C5: `Set` followed by `Get` on the same `(base, quote, date)` triple, at
any instant no later than the freshly written expiry `now + ttl`, returns
exactly the stored rate with `found = true`. -/
theorem set_then_get_returns_rate (c : MemoryCache) (f t d : String) (r : ℚ)
    (now tG : ℤ) (h : tG ≤ now + c.ttl) :
    (c.Set f t d r now).Get f t d tG = (r, true) := by
  have hlt : ¬ ((⟨r, now + c.ttl⟩ : CacheItem).expiresAt < tG) := by
    simp only [not_lt]
    exact h
  simp [MemoryCache.Get, MemoryCache.Set, mapLookup_insert_self, hlt]

theorem set_then_get_returns_rate_witness :
    ((0 : ℤ) ≤ 0 + (emptyCache 100).ttl) ∧
      ((emptyCache 100).Set "USD" "INR" "" (167/2) 0).Get "USD" "INR" "" 0 =
        (167/2, true) :=
  ⟨by decide,
    set_then_get_returns_rate (emptyCache 100) "USD" "INR" "" (167/2) 0 0
      (by decide)⟩

/-- C6: on an entry whose expiry has passed, `Get` returns `(0, false)` and
mutates nothing; the entry is still counted (it contributes exactly one unit
to `Size`) until a `cleanupExpired` sweep removes it, after which its key is
absent and `Size` has strictly decreased. -/
theorem expired_get_not_found_until_sweep (c : MemoryCache) (f t d : String)
    (item : CacheItem) (tG : ℤ)
    (hnd : (c.data.map Prod.fst).Nodup)
    (hfound : mapLookup c.data (generateKey f t d) = some item)
    (hexp : item.expiresAt < tG) :
    c.Get f t d tG = (0, false) ∧
    (c.GetSt f t d tG).2 = c ∧
    (c.data.filter (fun p => p.1 == generateKey f t d)).length = 1 ∧
    mapLookup (c.cleanupExpired tG).data (generateKey f t d) = none ∧
    (c.cleanupExpired tG).Size < c.Size := by
  obtain ⟨p, hfind, hsnd⟩ :
      ∃ p, c.data.find? (fun q => q.1 == generateKey f t d) = some p ∧
        p.2 = item := by
    unfold mapLookup at hfound
    rcases hfind : c.data.find? (fun q => q.1 == generateKey f t d) with _ | p
    · rw [hfind] at hfound; cases hfound
    · rw [hfind] at hfound
      exact ⟨p, hfind, Option.some_injective _ hfound⟩
  have hpmem : p ∈ c.data := List.mem_of_find?_eq_some hfind
  have hpkey : p.1 = generateKey f t d := by
    have := List.find?_some hfind
    simpa using this
  have hpexp : p.2.expiresAt < tG := hsnd ▸ hexp
  have huniq : ∀ q ∈ c.data, q.1 = generateKey f t d → q = p := by
    intro q hq hqk
    exact eq_of_mem_nodup_keys hnd hq hpmem (hqk.trans hpkey.symm)
  refine ⟨?_, rfl, ?_, ?_, ?_⟩
  · simp [MemoryCache.Get, hfound, hexp]
  · rw [show (fun p : String × CacheItem => p.1 == generateKey f t d) =
        (fun q : String × CacheItem => q.1 == p.1) by rw [hpkey]]
    rw [filter_key_eq_single hnd hpmem]
    rfl
  · unfold mapLookup MemoryCache.cleanupExpired
    rw [Option.map_eq_none', List.find?_eq_none]
    intro q hq
    simp only [List.mem_filter] at hq
    simp only [beq_iff_eq]
    intro hqk
    have hqp : q = p := huniq q hq.1 hqk
    rw [hqp] at hq
    simp [hpexp] at hq
  · unfold MemoryCache.cleanupExpired MemoryCache.Size
    simp only []
    rw [List.length_filter_lt_length_iff_exists]
    exact ⟨p, hpmem, by simp [hpexp]⟩

theorem expired_get_not_found_until_sweep_witness :
    ((emptyCache 100).Set "USD" "INR" "" 83 0).Get "USD" "INR" "" 101 =
        (0, false) ∧
      (((emptyCache 100).Set "USD" "INR" "" 83 0).cleanupExpired 101).Size <
        ((emptyCache 100).Set "USD" "INR" "" 83 0).Size := by
  have h := expired_get_not_found_until_sweep
    ((emptyCache 100).Set "USD" "INR" "" 83 0) "USD" "INR" ""
    ⟨83, 0 + 100⟩ 101 (by decide) rfl (by decide)
  exact ⟨h.1, h.2.2.2.2⟩

/-! ## Cache-key structure (claim C3)

`generateKey` concatenates its components with `_` separators, so it is
injective only on components that contain no `_`, and an empty date
produces the same key as the literal date string `"latest"`. -/

/-- The component contains no `_` separator character. -/
def noUnderscore (s : String) : Prop := ('_' : Char) ∉ s.data

instance (s : String) : Decidable (noUnderscore s) := by
  unfold noUnderscore
  infer_instance

theorem sep_append_inj {a a' s s' : List Char} (ha : '_' ∉ a) (ha' : '_' ∉ a')
    (h : a ++ '_' :: s = a' ++ '_' :: s') : a = a' ∧ s = s' := by
  induction a generalizing a' with
  | nil =>
    cases a' with
    | nil => simpa using h
    | cons b a'' =>
      rw [List.nil_append, List.cons_append, List.cons.injEq] at h
      exact absurd (h.1 ▸ List.mem_cons_self b a'') ha'
  | cons b a₀ ih =>
    cases a' with
    | nil =>
      rw [List.nil_append, List.cons_append, List.cons.injEq] at h
      exact absurd (h.1 ▸ List.mem_cons_self b a₀) ha
    | cons c a'' =>
      rw [List.cons_append, List.cons_append, List.cons.injEq] at h
      have hbm : '_' ∉ a₀ := fun hm => ha (List.mem_cons_of_mem b hm)
      have hcm : '_' ∉ a'' := fun hm => ha' (List.mem_cons_of_mem c hm)
      obtain ⟨h1, h2⟩ := ih hbm hcm h.2
      exact ⟨by rw [h.1, h1], h2⟩

theorem generateKey_data (f t d : String) :
    (generateKey f t d).data =
      f.data ++ '_' ::
        (t.data ++ '_' :: (if d = "" then ("latest" : String).data else d.data)) := by
  have e1 : ("_" : String).data = ['_'] := rfl
  have e2 : ("_latest" : String).data = '_' :: ("latest" : String).data := rfl
  unfold generateKey
  by_cases hd : d = "" <;>
    simp [hd, String.data_append, e1, e2, List.append_assoc]

theorem generateKey_inj {f t d f' t' d' : String}
    (hf : noUnderscore f) (ht : noUnderscore t)
    (hf' : noUnderscore f') (ht' : noUnderscore t')
    (hd : d ≠ "latest") (hd' : d' ≠ "latest")
    (h : generateKey f t d = generateKey f' t' d') :
    f = f' ∧ t = t' ∧ d = d' := by
  have hdata := congrArg String.data h
  rw [generateKey_data, generateKey_data] at hdata
  obtain ⟨h1, h2⟩ := sep_append_inj hf hf' hdata
  obtain ⟨h3, h4⟩ := sep_append_inj ht ht' h2
  refine ⟨String.ext h1, String.ext h3, ?_⟩
  by_cases e : d = "" <;> by_cases e' : d' = ""
  · rw [e, e']
  · rw [if_pos e, if_neg e'] at h4
    exact absurd (String.ext h4.symm) hd'
  · rw [if_neg e, if_pos e'] at h4
    exact absurd (String.ext h4) hd
  · rw [if_neg e, if_neg e'] at h4
    exact String.ext h4

theorem generateKey_latest_inj {f t f' t' : String}
    (hf : noUnderscore f) (ht : noUnderscore t)
    (hf' : noUnderscore f') (ht' : noUnderscore t')
    (h : generateKey f t "" = generateKey f' t' "") : f = f' ∧ t = t' := by
  have := generateKey_inj hf ht hf' ht' (by decide) (by decide) h
  exact ⟨this.1, this.2.1⟩

/-- C3 counterexample: the cache-key function is *not* injective on all
`(base, quote, date)` triples, and the empty date does *not* occupy a key
space disjoint from every explicit date string: the explicit date
`"latest"` produces exactly the key of the empty ("latest") date. -/
theorem generateKey_counterexample :
    generateKey "USD" "INR" "" = generateKey "USD" "INR" "latest" ∧
      ("" : String) ≠ "latest" ∧
      ("USD", "INR", "") ≠ ("USD", "INR", "latest") := by
  refine ⟨by decide, by decide, by decide⟩

/-- C3 amended: on triples whose currency components contain no `_` and
whose date is not the string `"latest"`, `generateKey` is injective; in
particular the latest-rate key and any explicit-date key in that domain
never collide, and the spec's scenario holds: `Set("USD","INR","",83.5)`
and `Set("USD","INR","2023-01-01",82.0)` land under distinct keys and each
`Get` returns its own value. -/
theorem generateKey_injective_amended {f t d f' t' d' : String}
    (hf : noUnderscore f) (ht : noUnderscore t)
    (hf' : noUnderscore f') (ht' : noUnderscore t')
    (hd : d ≠ "latest") (hd' : d' ≠ "latest")
    (h : generateKey f t d = generateKey f' t' d') :
    (f = f' ∧ t = t' ∧ d = d') ∧
      (((emptyCache 100).Set "USD" "INR" "" (167/2) 0).Set
          "USD" "INR" "2023-01-01" 82 0).Get "USD" "INR" "" 0 = (167/2, true) ∧
      (((emptyCache 100).Set "USD" "INR" "" (167/2) 0).Set
          "USD" "INR" "2023-01-01" 82 0).Get "USD" "INR" "2023-01-01" 0 =
        (82, true) := by
  refine ⟨generateKey_inj hf ht hf' ht' hd hd' h, ?_, ?_⟩
  · have hne : generateKey "USD" "INR" "2023-01-01" ≠ generateKey "USD" "INR" "" := by
      decide
    simp [MemoryCache.Get, MemoryCache.Set, mapLookup_insert_ne _ _ _ _ hne,
      mapLookup_insert_self, emptyCache]
  · simp [MemoryCache.Get, MemoryCache.Set, mapLookup_insert_self, emptyCache]

theorem generateKey_injective_amended_witness :
    ("EUR" = "EUR" ∧ "JPY" = "JPY" ∧ "2023-01-01" = "2023-01-01") ∧
      (((emptyCache 100).Set "USD" "INR" "" (167/2) 0).Set
          "USD" "INR" "2023-01-01" 82 0).Get "USD" "INR" "" 0 = (167/2, true) ∧
      (((emptyCache 100).Set "USD" "INR" "" (167/2) 0).Set
          "USD" "INR" "2023-01-01" 82 0).Get "USD" "INR" "2023-01-01" 0 =
        (82, true) :=
  generateKey_injective_amended (f := "EUR") (t := "JPY") (d := "2023-01-01")
    (by decide) (by decide) (by decide) (by decide) (by decide) (by decide) rfl

/-! ## RateSource client and on-demand fetch path

`ExchangeRateClient.GetLatestRates` performs an HTTP round trip; its
observable outcome per base currency is either an error (transport
failure, non-success status, decode failure, or `nil` rates) or the
decoded `Rates` map.  That outcome is the oracle parameter `resp`
below; the `Rates` map (`map[string]float64`) is embedded as a
key-value list in iteration order. -/

/-- Go map lookup `apiResponse.Rates[to]`. -/
def ratesLookup (m : List (String × ℚ)) (k : String) : Option ℚ :=
  (m.find? (fun p => p.1 == k)).map Prod.snd

/-- Per-base observable outcome of `ExchangeRateClient.GetLatestRates`. -/
abbrev LatestRatesOracle := String → Except String (List (String × ℚ))

/-- Go `models.SupportedCurrencies` (the key set of the map). -/
def SupportedCurrencies : List String := ["USD", "INR", "EUR", "JPY", "GBP"]

/-- Go `models.SupportedCurrencies[s]` (map membership as bool). -/
def isSupported (s : String) : Bool := SupportedCurrencies.contains s

/-- Go `ExchangeRateClient.GetRateForPair`: same-currency short-circuit to
`1.0`, otherwise one `GetLatestRates` call and a lookup of the quote. -/
def GetRateForPair (resp : LatestRatesOracle) (f t : String) :
    Except String ℚ :=
  if f = t then .ok 1
  else
    match resp f with
    | .error e => .error e
    | .ok rates =>
      match ratesLookup rates t with
      | some r => .ok r
      | none => .error ("rate not found for currency pair " ++ f ++ "/" ++ t)

/-- The fixed error message of `ExchangeRateClient.GetHistoricalRates`. -/
def historicalUnavailableMsg : String :=
  "historical data not available with current API - upgrade to paid tier for historical data"

/-- Go `ExchangeRateClient.GetHistoricalRates`: in this build it returns an
error unconditionally, before any network access. -/
def GetHistoricalRates (_base _date : String) :
    Except String (List (String × ℚ)) :=
  .error historicalUnavailableMsg

/-- Go `ExchangeRateClient.GetHistoricalRateForPair`. -/
def GetHistoricalRateForPair (f t d : String) : Except String ℚ :=
  if f = t then .ok 1
  else
    match GetHistoricalRates f d with
    | .error e => .error e
    | .ok rates =>
      match ratesLookup rates t with
      | some r => .ok r
      | none =>
        .error ("historical rate not found for currency pair " ++ f ++ "/" ++
          t ++ " on " ++ d)

/-- Go `RateFetcher.FetchRateOnDemand`: delegate to `GetRateForPair`; on
error return it with no cache write, on success `Set` then return. -/
def FetchRateOnDemand (resp : LatestRatesOracle) (f t : String)
    (c : MemoryCache) (now : ℤ) : Except String ℚ × MemoryCache :=
  match GetRateForPair resp f t with
  | .error e => (.error e, c)
  | .ok r => (.ok r, c.Set f t "" r now)

/-- Go `RateFetcher.FetchHistoricalRateOnDemand`. -/
def FetchHistoricalRateOnDemand (f t d : String) (c : MemoryCache)
    (now : ℤ) : Except String ℚ × MemoryCache :=
  match GetHistoricalRateForPair f t d with
  | .error e => (.error e, c)
  | .ok r => (.ok r, c.Set f t d r now)

/-! ## Full-refresh pass (`fetchAllRates` / `fetchRatesForBase`) -/

/-- Go `rateResult`, the channel element type of a refresh pass.  A Go
struct built without a `rate` field leaves it at the zero value `0`. -/
structure RateResult where
  from_ : String
  to_ : String
  rate : ℚ
  err : Option String
  deriving DecidableEq

/-- Go `RateFetcher.fetchRatesForBase`: on failure of `GetLatestRates`,
emit one error result per other supported currency and stop (no self-rate);
on success, emit one result per returned quote that is supported and
different from the base, then the explicit `(base, base, 1.0)` self-rate. -/
def fetchRatesForBase (resp : LatestRatesOracle) (currencies : List String)
    (base : String) : List RateResult :=
  match resp base with
  | .error e =>
    (currencies.filter (fun t => !(t == base))).map
      (fun t => ⟨base, t, 0, some e⟩)
  | .ok rates =>
    ((rates.filter (fun p => isSupported p.1 && !(p.1 == base))).map
      (fun p => ⟨base, p.1, p.2, none⟩)) ++ [⟨base, base, 1, none⟩]

/-- The fan-in loop of Go `RateFetcher.fetchAllRates`: drain the result
channel in order, `Set` each success into the cache and count it, count
each error.  Returns `(cache, successCount, errorCount)`. -/
def processResults : List RateResult → MemoryCache → ℤ → MemoryCache × ℕ × ℕ
  | [], c, _ => (c, 0, 0)
  | r :: rs, c, now =>
    match r.err with
    | some _ =>
      let acc := processResults rs c now
      (acc.1, acc.2.1, acc.2.2 + 1)
    | none =>
      let acc := processResults rs (c.Set r.from_ r.to_ "" r.rate now) now
      (acc.1, acc.2.1 + 1, acc.2.2)

/-- Go `RateFetcher.fetchAllRates`: fan out one `fetchRatesForBase` task per
base currency, fan in every emitted result.  The channel interleaving is
embedded as the concatenation of the per-base result lists; the claims
proved below do not depend on the interleaving order. -/
def fetchAllRates (resp : LatestRatesOracle) (currencies : List String)
    (c : MemoryCache) (now : ℤ) : MemoryCache × ℕ × ℕ :=
  processResults ((currencies.map (fetchRatesForBase resp currencies)).flatten)
    c now

/-! ## Orchestrator lifecycle (`Start` / `Stop` / `IsRunning`) -/

/-- The lifecycle state of Go `RateFetcher`: the `isRunning` flag and
whether `cancel()` has been called on its context. -/
structure RateFetcherState where
  isRunning : Bool
  cancelled : Bool
  deriving DecidableEq, Repr

/-- Go `NewRateFetcher`: `isRunning` is the zero value `false` and the
fresh context is not cancelled. -/
def initialFetcherState : RateFetcherState := ⟨false, false⟩

/-- Go `RateFetcher.Start`: no-op when already running, otherwise set
`isRunning` and launch the goroutines.  The second component counts the
periodic-refresh loops (`periodicFetch` goroutines) launched by the call. -/
def RateFetcherState.Start (s : RateFetcherState) : RateFetcherState × ℕ :=
  if s.isRunning then (s, 0) else ({ s with isRunning := true }, 1)

/-- Go `RateFetcher.Stop`: no-op when already stopped, otherwise call
`cancel()` and clear `isRunning`. -/
def RateFetcherState.Stop (s : RateFetcherState) : RateFetcherState :=
  if s.isRunning then { isRunning := false, cancelled := true } else s

/-- Go `RateFetcher.IsRunning`. -/
def RateFetcherState.IsRunning (s : RateFetcherState) : Bool := s.isRunning

/-! ## Claims C2, C7, C9, C10 -/

/-- C2 counterexample: `FetchRateOnDemand` on the same-currency pair
`("USD","USD")` does *not* leave the cache unchanged — it performs
`Set("USD","USD","",1.0)` — even though the rate source (here failing on
every call, so certainly not consulted successfully) plays no part. -/
theorem same_currency_fetch_writes_cache_counterexample :
    (FetchRateOnDemand (fun _ => Except.error "api down") "USD" "USD"
        (emptyCache 100) 0).2 ≠ emptyCache 100 := by
  decide

/-- C2 amended: on-demand fetches of a same-currency pair return rate `1.0`
without consulting the rate source (the outcome is the same for every
oracle), but each of them *does* perform one cache `Set` of
`(X, X, date) → 1.0`; the client-level `GetRateForPair` itself touches no
cache. -/
theorem same_currency_on_demand_amended (f d : String) (c : MemoryCache)
    (now : ℤ) (resp resp' : LatestRatesOracle) :
    FetchRateOnDemand resp f f c now = (.ok 1, c.Set f f "" 1 now) ∧
    FetchHistoricalRateOnDemand f f d c now = (.ok 1, c.Set f f d 1 now) ∧
    GetRateForPair resp f f = GetRateForPair resp' f f := by
  refine ⟨?_, ?_, ?_⟩ <;>
    simp [FetchRateOnDemand, FetchHistoricalRateOnDemand, GetRateForPair,
      GetHistoricalRateForPair]

/-- C7: when the rate-source call inside an on-demand fetch fails, the
fetch returns that error unchanged and performs no cache write. -/
theorem on_demand_failure_propagates (resp : LatestRatesOracle)
    (f t d : String) (c : MemoryCache) (now : ℤ) (e e' : String)
    (h1 : GetRateForPair resp f t = .error e)
    (h2 : GetHistoricalRateForPair f t d = .error e') :
    FetchRateOnDemand resp f t c now = (.error e, c) ∧
    FetchHistoricalRateOnDemand f t d c now = (.error e', c) := by
  constructor
  · simp [FetchRateOnDemand, h1]
  · simp [FetchHistoricalRateOnDemand, h2]

theorem on_demand_failure_propagates_witness :
    FetchRateOnDemand (fun _ => Except.error "api down") "USD" "INR"
        (emptyCache 100) 0 = (Except.error "api down", emptyCache 100) ∧
    FetchHistoricalRateOnDemand "USD" "INR" "2023-01-01" (emptyCache 100) 0 =
      (Except.error historicalUnavailableMsg, emptyCache 100) :=
  on_demand_failure_propagates (fun _ => Except.error "api down") "USD" "INR"
    "2023-01-01" (emptyCache 100) 0 "api down" historicalUnavailableMsg rfl rfl

/-- C9: the orchestrator lifecycle is the two-state machine
`{Stopped, Running}` starting in `Stopped`; `Start` is a no-op (launching
no loop) when running and otherwise sets running launching one loop, so
two consecutive `Start`s launch exactly one periodic loop; `Stop` is a
no-op when stopped and otherwise signals cancellation and clears running;
`IsRunning` reports the flag. -/
theorem fetcher_lifecycle (s : RateFetcherState) :
    initialFetcherState.IsRunning = false ∧
    RateFetcherState.Start ⟨true, s.cancelled⟩ = (⟨true, s.cancelled⟩, 0) ∧
    RateFetcherState.Start ⟨false, s.cancelled⟩ = (⟨true, s.cancelled⟩, 1) ∧
    (initialFetcherState.Start.1.Start).2 + initialFetcherState.Start.2 = 1 ∧
    RateFetcherState.Stop ⟨false, s.cancelled⟩ = ⟨false, s.cancelled⟩ ∧
    RateFetcherState.Stop ⟨true, s.cancelled⟩ = ⟨false, true⟩ ∧
    s.IsRunning = s.isRunning ∧
    s.Start.1.isRunning = true ∧
    s.Stop.isRunning = false := by
  rcases s with ⟨ir, ca⟩
  cases ir <;> cases ca <;> decide

/-- C10: in this build `GetHistoricalRates` fails unconditionally, so a
historical on-demand fetch of a proper pair always returns that error and
leaves the cache untouched, while the same-currency short-circuit of
`GetHistoricalRateForPair` still returns `1.0`. -/
theorem historical_always_fails (f t d : String) (c : MemoryCache)
    (now : ℤ) (h : f ≠ t) :
    GetHistoricalRates f d = .error historicalUnavailableMsg ∧
    FetchHistoricalRateOnDemand f t d c now =
      (.error historicalUnavailableMsg, c) ∧
    GetHistoricalRateForPair t t d = .ok 1 := by
  refine ⟨rfl, ?_, by simp [GetHistoricalRateForPair]⟩
  simp [FetchHistoricalRateOnDemand, GetHistoricalRateForPair, h,
    GetHistoricalRates]

theorem historical_always_fails_witness :
    GetHistoricalRates "USD" "2023-01-01" =
        .error historicalUnavailableMsg ∧
      FetchHistoricalRateOnDemand "USD" "INR" "2023-01-01" (emptyCache 100) 0 =
        (.error historicalUnavailableMsg, emptyCache 100) ∧
      GetHistoricalRateForPair "INR" "INR" "2023-01-01" = .ok 1 :=
  historical_always_fails "USD" "INR" "2023-01-01" (emptyCache 100) 0
    (by decide)

/-! ## Refresh-pass analysis (claims C1 and C8) -/

/-- This result, when processed by the fan-in loop, performs a cache `Set`
under key `k`. -/
def writesKey (r : RateResult) (k : String) : Bool :=
  r.err.isNone && (generateKey r.from_ r.to_ "" == k)

theorem processResults_ttl (rs : List RateResult) (c : MemoryCache)
    (now : ℤ) : (processResults rs c now).1.ttl = c.ttl := by
  induction rs generalizing c with
  | nil => rfl
  | cons r rs ih =>
    cases herr : r.err with
    | some e => simpa [processResults, herr] using ih c
    | none =>
      simpa [processResults, herr] using
        ih (c.Set r.from_ r.to_ "" r.rate now)

theorem processResults_errorCount (rs : List RateResult) (c : MemoryCache)
    (now : ℤ) :
    (processResults rs c now).2.2 =
      (rs.filter (fun r => r.err.isSome)).length := by
  induction rs generalizing c with
  | nil => rfl
  | cons r rs ih =>
    cases herr : r.err with
    | some e =>
      simp [processResults, herr, List.filter_cons, Option.isSome, ih c]
    | none =>
      simp [processResults, herr, List.filter_cons, Option.isSome,
        ih (c.Set r.from_ r.to_ "" r.rate now)]

/-- The fan-in loop is last-write-wins per key: the final value under key
`k` is that of the last success result writing `k`, with expiry
`now + ttl`; if no result writes `k`, the initial cache value remains. -/
theorem processResults_lookup (rs : List RateResult) (c : MemoryCache)
    (now : ℤ) (k : String) :
    mapLookup (processResults rs c now).1.data k =
      match (rs.filter (fun r => writesKey r k)).getLast? with
      | some r => some ⟨r.rate, now + c.ttl⟩
      | none => mapLookup c.data k := by
  induction rs generalizing c with
  | nil => rfl
  | cons r rs ih =>
    cases herr : r.err with
    | some e =>
      have hw : writesKey r k = false := by simp [writesKey, herr]
      simpa [processResults, herr, List.filter_cons, hw] using ih c
    | none =>
      have hstep : (processResults (r :: rs) c now).1 =
          (processResults rs (c.Set r.from_ r.to_ "" r.rate now) now).1 := by
        simp [processResults, herr]
      have httl : (c.Set r.from_ r.to_ "" r.rate now).ttl = c.ttl := rfl
      rw [hstep, ih (c.Set r.from_ r.to_ "" r.rate now)]
      by_cases hkey : generateKey r.from_ r.to_ "" = k
      · have hw : writesKey r k = true := by simp [writesKey, herr, hkey]
        have hfilter : (r :: rs).filter (fun r => writesKey r k) =
            r :: rs.filter (fun r => writesKey r k) := by
          simp [List.filter_cons, hw]
        rw [hfilter, httl]
        rcases hrest : (rs.filter (fun r => writesKey r k)).getLast? with
          _ | r'
        · have hnil : rs.filter (fun r => writesKey r k) = [] :=
            List.getLast?_eq_none_iff.mp hrest
          rw [hnil]
          have hone : ([r] : List RateResult).getLast? = some r := by simp
          rw [hone]
          show mapLookup (mapInsert c.data (generateKey r.from_ r.to_ "")
            ⟨r.rate, now + c.ttl⟩) k = some ⟨r.rate, now + c.ttl⟩
          rw [← hkey]
          exact mapLookup_insert_self _ _ _
        · have hlast :
              (r :: rs.filter (fun r => writesKey r k)).getLast? = some r' := by
            rcases hfl : rs.filter (fun r => writesKey r k) with _ | ⟨a, l⟩
            · rw [hfl] at hrest; cases hrest
            · rw [hfl] at hrest
              rw [List.getLast?_cons_cons]
              exact hrest
          rw [hlast]
      · have hw : writesKey r k = false := by simp [writesKey, herr, hkey]
        have hfilter : (r :: rs).filter (fun r => writesKey r k) =
            rs.filter (fun r => writesKey r k) := by
          simp [List.filter_cons, hw]
        rw [hfilter, httl]
        rcases hrest : (rs.filter (fun r => writesKey r k)).getLast? with
          _ | r'
        · show mapLookup (mapInsert c.data (generateKey r.from_ r.to_ "")
            ⟨r.rate, now + c.ttl⟩) k = mapLookup c.data k
          exact mapLookup_insert_ne _ _ _ _ hkey
        · rfl

theorem noUnderscore_of_supported {s : String} (h : isSupported s = true) :
    noUnderscore s := by
  have hm : s = "USD" ∨ s = "INR" ∨ s = "EUR" ∨ s = "JPY" ∨ s = "GBP" := by
    simpa [isSupported, SupportedCurrencies] using h
  rcases hm with rfl | rfl | rfl | rfl | rfl <;> decide

theorem mem_fetchRatesForBase {resp : LatestRatesOracle}
    {currencies : List String} {base : String} {r : RateResult}
    (h : r ∈ fetchRatesForBase resp currencies base) :
    r.from_ = base ∧
      (r.err = none → r.to_ = base ∨ isSupported r.to_ = true) := by
  unfold fetchRatesForBase at h
  rcases hresp : resp base with e | rates
  · rw [hresp] at h
    simp only [List.mem_map, List.mem_filter] at h
    obtain ⟨t, _, rfl⟩ := h
    exact ⟨rfl, fun hc => by cases hc⟩
  · rw [hresp] at h
    rcases List.mem_append.mp h with h1 | h2
    · simp only [List.mem_map, List.mem_filter] at h1
      obtain ⟨p, ⟨_, hpc⟩, rfl⟩ := h1
      simp only [Bool.and_eq_true] at hpc
      exact ⟨rfl, fun _ => Or.inr hpc.1⟩
    · have hr : r = ⟨base, base, 1, none⟩ := by simpa using h2
      subst hr
      exact ⟨rfl, fun _ => Or.inl rfl⟩

/-- A task for a base different from `f` never writes a key with base
component `f` (currency components contain no `_`). -/
theorem segment_no_writes (resp : LatestRatesOracle) (currencies : List String)
    {base f q : String} (hb : noUnderscore base) (hf : noUnderscore f)
    (hq : noUnderscore q) (hne : base ≠ f) :
    (fetchRatesForBase resp currencies base).filter
      (fun r => writesKey r (generateKey f q "")) = [] := by
  rw [List.filter_eq_nil_iff]
  intro r hr hwr
  obtain ⟨hfrom, hto⟩ := mem_fetchRatesForBase hr
  simp only [writesKey, Bool.and_eq_true, Option.isNone_iff_eq_none,
    beq_iff_eq] at hwr
  obtain ⟨hernone, hkeq⟩ := hwr
  have hf0 : noUnderscore r.from_ := by rw [hfrom]; exact hb
  have hto' : noUnderscore r.to_ := by
    rcases hto hernone with h | h
    · rw [h]; exact hb
    · exact noUnderscore_of_supported h
  obtain ⟨h1, _⟩ := generateKey_latest_inj hf0 hto' hf hq hkeq
  exact hne (hfrom.symm.trans h1)

theorem segment_error_results {resp : LatestRatesOracle}
    {currencies : List String} {base e : String}
    (hresp : resp base = .error e) :
    fetchRatesForBase resp currencies base =
      (currencies.filter (fun t => !(t == base))).map
        (fun t => ⟨base, t, 0, some e⟩) := by
  unfold fetchRatesForBase
  rw [hresp]

/-- A task whose `GetLatestRates` call failed performs no cache write. -/
theorem segment_error_no_writes {resp : LatestRatesOracle}
    {currencies : List String} {base e : String}
    (hresp : resp base = .error e) (k : String) :
    (fetchRatesForBase resp currencies base).filter
      (fun r => writesKey r k) = [] := by
  rw [segment_error_results hresp, List.filter_eq_nil_iff]
  intro r hr
  obtain ⟨t, _, rfl⟩ := List.mem_map.mp hr
  simp [writesKey]

/-- A task whose `GetLatestRates` call succeeded emits no error result. -/
theorem segment_ok_no_errors {resp : LatestRatesOracle}
    {currencies : List String} {base : String} {m : List (String × ℚ)}
    (hresp : resp base = .ok m) :
    (fetchRatesForBase resp currencies base).filter
      (fun r => r.err.isSome) = [] := by
  rw [List.filter_eq_nil_iff]
  intro r hr
  unfold fetchRatesForBase at hr
  rw [hresp] at hr
  rcases List.mem_append.mp hr with h1 | h2
  · obtain ⟨p, _, rfl⟩ := List.mem_map.mp h1
    simp
  · have hr2 : r = ⟨base, base, 1, none⟩ := by simpa using h2
    subst hr2
    simp

/-- A successful task's only write to its own self-rate key is the explicit
`(base, base, 1.0)` result. -/
theorem segment_self_write {resp : LatestRatesOracle}
    {currencies : List String} {base : String} {m : List (String × ℚ)}
    (hresp : resp base = .ok m) (hb : noUnderscore base) :
    (fetchRatesForBase resp currencies base).filter
      (fun r => writesKey r (generateKey base base "")) =
      [⟨base, base, 1, none⟩] := by
  unfold fetchRatesForBase
  rw [hresp, List.filter_append]
  have h1 : ((m.filter (fun p => isSupported p.1 && !(p.1 == base))).map
      (fun p => (⟨base, p.1, p.2, none⟩ : RateResult))).filter
      (fun r => writesKey r (generateKey base base "")) = [] := by
    rw [List.filter_eq_nil_iff]
    intro r hr hwr
    obtain ⟨p, hp, rfl⟩ := List.mem_map.mp hr
    have hpm := (List.mem_filter.mp hp).2
    simp only [Bool.and_eq_true] at hpm
    simp only [writesKey, Option.isNone_none, Bool.true_and, beq_iff_eq]
      at hwr
    have hpq : noUnderscore p.1 := noUnderscore_of_supported hpm.1
    obtain ⟨_, h2⟩ := generateKey_latest_inj hb hpq hb hb hwr
    rw [h2] at hpm
    simp at hpm
  have h2 : ([⟨base, base, 1, none⟩] : List RateResult).filter
      (fun r => writesKey r (generateKey base base "")) =
      [⟨base, base, 1, none⟩] := by
    simp [writesKey]
  rw [h1, h2, List.nil_append]

/-- A successful task's only write to the key of a supported quote `q` of
its response is the single `(base, q, rate)` result. -/
theorem segment_quote_write {resp : LatestRatesOracle}
    {currencies : List String} {base : String} {m : List (String × ℚ)}
    {q : String} {rq : ℚ}
    (hresp : resp base = .ok m) (hb : noUnderscore base)
    (hqs : isSupported q = true) (hqb : q ≠ base)
    (hndm : (m.map Prod.fst).Nodup) (hqm : (q, rq) ∈ m) :
    (fetchRatesForBase resp currencies base).filter
      (fun r => writesKey r (generateKey base q "")) =
      [⟨base, q, rq, none⟩] := by
  have hq : noUnderscore q := noUnderscore_of_supported hqs
  unfold fetchRatesForBase
  rw [hresp, List.filter_append]
  have hself : ([⟨base, base, 1, none⟩] : List RateResult).filter
      (fun r => writesKey r (generateKey base q "")) = [] := by
    have hw : writesKey ⟨base, base, 1, none⟩ (generateKey base q "") =
        false := by
      simp only [writesKey, Option.isNone_none, Bool.true_and]
      rw [beq_eq_false_iff_ne]
      intro hEq
      obtain ⟨_, h2⟩ := generateKey_latest_inj hb hb hb hq hEq
      exact hqb h2.symm
    simp [List.filter_cons, hw]
  have hmap : ((m.filter (fun p => isSupported p.1 && !(p.1 == base))).map
      (fun p => (⟨base, p.1, p.2, none⟩ : RateResult))).filter
      (fun r => writesKey r (generateKey base q "")) =
      [⟨base, q, rq, none⟩] := by
    rw [List.filter_map]
    have hcong : (m.filter (fun p => isSupported p.1 && !(p.1 == base))).filter
        ((fun r => writesKey r (generateKey base q "")) ∘
          (fun p => (⟨base, p.1, p.2, none⟩ : RateResult))) =
        (m.filter (fun p => isSupported p.1 && !(p.1 == base))).filter
          (fun p => p.1 == q) := by
      apply List.filter_congr
      intro p hp
      have hpm := (List.mem_filter.mp hp).2
      simp only [Bool.and_eq_true] at hpm
      have hp1 : noUnderscore p.1 := noUnderscore_of_supported hpm.1
      simp only [Function.comp, writesKey, Option.isNone_none, Bool.true_and]
      by_cases hpq : p.1 = q
      · rw [hpq]
        simp
      · have hne : generateKey base p.1 "" ≠ generateKey base q "" := by
          intro hEq
          obtain ⟨_, h2⟩ := generateKey_latest_inj hb hp1 hb hq hEq
          exact hpq h2
        have e1 : (generateKey base p.1 "" == generateKey base q "") =
            false := by simpa using hne
        have e2 : (p.1 == q) = false := by simpa using hpq
        rw [e1, e2]
    rw [hcong, List.filter_filter]
    have hcong2 : m.filter (fun p => (p.1 == q) &&
        (isSupported p.1 && !(p.1 == base))) =
        m.filter (fun p => p.1 == q) := by
      apply List.filter_congr
      intro p _
      by_cases hpq : p.1 = q
      · have e2 : (p.1 == q) = true := by simpa using hpq
        rw [e2, hpq]
        simp [hqs, hqb]
      · have e2 : (p.1 == q) = false := by simpa using hpq
        rw [e2]
        simp
    rw [hcong2]
    have hsingle := filter_key_eq_single (p := (q, rq)) hndm hqm
    rw [show (fun x : String × ℚ => x.1 == q) =
        (fun x : String × ℚ => x.1 == (q, rq).1) from rfl, hsingle]
    rfl
  rw [hmap, hself, List.append_nil]

/-- When every task other than `X`'s contributes nothing to a filter, the
filtered fan-in stream is exactly `X`'s filtered segment. -/
theorem flatten_filter_eq_segment (resp : LatestRatesOracle)
    {currencies : List String} {X : String} (p : RateResult → Bool)
    (hnd : currencies.Nodup) (hX : X ∈ currencies)
    (hempty : ∀ b ∈ currencies, b ≠ X →
      (fetchRatesForBase resp currencies b).filter p = []) :
    ((currencies.map (fetchRatesForBase resp currencies)).flatten).filter p =
      (fetchRatesForBase resp currencies X).filter p := by
  rw [List.filter_flatten, List.map_map]
  obtain ⟨l1, l2, hdec⟩ := List.append_of_mem hX
  subst hdec
  rw [List.nodup_append] at hnd
  have hX1 : X ∉ l1 := fun hmem => hnd.2.2 hmem (List.mem_cons_self X l2)
  have hX2 : X ∉ l2 := (List.nodup_cons.mp hnd.2.1).1
  rw [List.map_append, List.flatten_append, List.map_cons, List.flatten_cons]
  have h1 : (l1.map ((List.filter p) ∘
      fetchRatesForBase resp (l1 ++ X :: l2))).flatten = [] := by
    rw [List.flatten_eq_nil_iff]
    intro l hl
    obtain ⟨b, hb, hfb⟩ := List.mem_map.mp hl
    rw [← hfb]
    exact hempty b (List.mem_append_left _ hb)
      (fun hbX => hX1 (hbX ▸ hb))
  have h2 : (l2.map ((List.filter p) ∘
      fetchRatesForBase resp (l1 ++ X :: l2))).flatten = [] := by
    rw [List.flatten_eq_nil_iff]
    intro l hl
    obtain ⟨b, hb, hfb⟩ := List.mem_map.mp hl
    rw [← hfb]
    exact hempty b (List.mem_append_right _ (List.mem_cons_of_mem X hb))
      (fun hbX => hX2 (hbX ▸ hb))
  rw [h1, h2, List.nil_append, List.append_nil]
  rfl

/-- After a full refresh, the self-rate key of any base whose call
succeeded holds `1.0` with a fresh expiry. -/
theorem refresh_lookup_self (resp : LatestRatesOracle)
    (currencies : List String) (c : MemoryCache) (now : ℤ)
    {X : String} {m : List (String × ℚ)}
    (hnd : currencies.Nodup)
    (hsup : ∀ b ∈ currencies, isSupported b = true)
    (hX : X ∈ currencies) (hok : resp X = .ok m) :
    mapLookup (fetchAllRates resp currencies c now).1.data
      (generateKey X X "") = some ⟨1, now + c.ttl⟩ := by
  have hXs : noUnderscore X := noUnderscore_of_supported (hsup X hX)
  unfold fetchAllRates
  rw [processResults_lookup]
  rw [flatten_filter_eq_segment resp
    (fun r => writesKey r (generateKey X X "")) hnd hX
    (fun b hb hbne => segment_no_writes resp currencies
      (noUnderscore_of_supported (hsup b hb)) hXs hXs hbne)]
  rw [segment_self_write hok hXs]
  rfl

/-- After a full refresh, the key of a supported quote of a successful
base's response holds the quoted rate with a fresh expiry. -/
theorem refresh_lookup_quote (resp : LatestRatesOracle)
    (currencies : List String) (c : MemoryCache) (now : ℤ)
    {b q : String} {m : List (String × ℚ)} {rq : ℚ}
    (hnd : currencies.Nodup)
    (hsup : ∀ x ∈ currencies, isSupported x = true)
    (hb : b ∈ currencies) (hok : resp b = .ok m)
    (hndm : (m.map Prod.fst).Nodup) (hqm : (q, rq) ∈ m)
    (hqs : isSupported q = true) (hqb : q ≠ b) :
    mapLookup (fetchAllRates resp currencies c now).1.data
      (generateKey b q "") = some ⟨rq, now + c.ttl⟩ := by
  have hbs : noUnderscore b := noUnderscore_of_supported (hsup b hb)
  have hqs' : noUnderscore q := noUnderscore_of_supported hqs
  unfold fetchAllRates
  rw [processResults_lookup]
  rw [flatten_filter_eq_segment resp
    (fun r => writesKey r (generateKey b q "")) hnd hb
    (fun b' hb' hbne => segment_no_writes resp currencies
      (noUnderscore_of_supported (hsup b' hb')) hbs hqs' hbne)]
  rw [segment_quote_write hok hbs hqs hqb hndm hqm]
  rfl

/-- After a full refresh in which base `B`'s call failed, every latest-rate
key with base component `B` is exactly as it was before the pass. -/
theorem refresh_lookup_failed_base (resp : LatestRatesOracle)
    (currencies : List String) (c : MemoryCache) (now : ℤ)
    {B e : String}
    (hsup : ∀ b ∈ currencies, isSupported b = true)
    (hB : B ∈ currencies) (herr : resp B = .error e)
    (q : String) (hq : noUnderscore q) :
    mapLookup (fetchAllRates resp currencies c now).1.data
      (generateKey B q "") = mapLookup c.data (generateKey B q "") := by
  have hBs : noUnderscore B := noUnderscore_of_supported (hsup B hB)
  unfold fetchAllRates
  rw [processResults_lookup]
  have hall : ((currencies.map (fetchRatesForBase resp currencies)).flatten).filter
      (fun r => writesKey r (generateKey B q "")) = [] := by
    rw [List.filter_flatten, List.map_map, List.flatten_eq_nil_iff]
    intro l hl
    obtain ⟨b, hb, hfb⟩ := List.mem_map.mp hl
    rw [← hfb]
    by_cases hbB : b = B
    · subst hbB
      exact segment_error_no_writes herr _
    · exact segment_no_writes resp currencies
        (noUnderscore_of_supported (hsup b hb)) hBs hq hbB
  rw [hall]
  rfl

/-- The error results of a pass in which exactly base `B`'s call failed are
one per other supported currency, in fan-out order. -/
theorem refresh_error_results (resp : LatestRatesOracle)
    {currencies : List String} {B e : String}
    (hnd : currencies.Nodup) (hB : B ∈ currencies)
    (herr : resp B = .error e)
    (hok : ∀ b ∈ currencies, b ≠ B → ∃ m, resp b = .ok m) :
    ((currencies.map (fetchRatesForBase resp currencies)).flatten).filter
        (fun r => r.err.isSome) =
      (currencies.filter (fun t => !(t == B))).map
        (fun t => ⟨B, t, 0, some e⟩) := by
  rw [flatten_filter_eq_segment resp (fun r => r.err.isSome) hnd hB
    (fun b hb hbne => by
      obtain ⟨m, hm⟩ := hok b hb hbne
      exact segment_ok_no_errors hm)]
  rw [segment_error_results herr, List.filter_eq_self.mpr]
  intro r hr
  obtain ⟨t, _, hrt⟩ := List.mem_map.mp hr
  rw [← hrt]
  rfl

/-- C1 counterexample: when the `GetLatestRates` call for base `"USD"`
fails, the full refresh pass writes *no* `("USD","USD","")` entry at all
(the task returns before emitting the self-rate), so the pass does not
write the self-rate "regardless of whether the RateSource call for base X
succeeded". -/
theorem refresh_self_rate_counterexample :
    mapLookup (fetchAllRates (fun _ => Except.error "api down")
        SupportedCurrencies (emptyCache 100) 0).1.data
      (generateKey "USD" "USD" "") = none := by
  decide

/-- C1 amended: for every base currency `X` whose `GetLatestRates` call
succeeded, the full refresh pass writes the entry `(X, X, "")` with rate
`1.0` into the cache, regardless of what quote currencies the response
contained (in particular whether or not it contained a self-rate). -/
theorem refresh_writes_self_rate_amended (resp : LatestRatesOracle)
    (currencies : List String) (c : MemoryCache) (now : ℤ)
    (X : String) (m : List (String × ℚ))
    (hnd : currencies.Nodup)
    (hsup : ∀ b ∈ currencies, isSupported b = true)
    (hX : X ∈ currencies) (hok : resp X = .ok m) :
    (mapLookup (fetchAllRates resp currencies c now).1.data
        (generateKey X X "")).map CacheItem.rate = some 1 := by
  rw [refresh_lookup_self resp currencies c now hnd hsup hX hok]
  rfl

theorem refresh_writes_self_rate_amended_witness :
    (mapLookup (fetchAllRates
        (fun b => if b = "USD" then Except.ok [("INR", (83 : ℚ))]
          else Except.error "api down")
        SupportedCurrencies (emptyCache 100) 0).1.data
      (generateKey "USD" "USD" "")).map CacheItem.rate = some 1 :=
  refresh_writes_self_rate_amended
    (fun b => if b = "USD" then Except.ok [("INR", (83 : ℚ))]
      else Except.error "api down")
    SupportedCurrencies (emptyCache 100) 0 "USD" [("INR", 83)]
    (by decide) (by decide) (by decide) rfl

/-- C8: when base `B`'s `GetLatestRates` call fails during a full refresh
and every other base's call succeeds, then (i) the failure outcomes of the
pass are exactly one per supported currency other than `B`, (ii) the error
counter equals their number, (iii) no key with base component `B` changes,
(iv) every other base's task still completes and writes its `1.0`
self-rate, and (v) every other base's supported response quotes are
written with their quoted rates — the pass is never aborted. -/
theorem refresh_partial_failure_isolated (resp : LatestRatesOracle)
    (currencies : List String) (c : MemoryCache) (now : ℤ) (B e : String)
    (hnd : currencies.Nodup)
    (hsup : ∀ b ∈ currencies, isSupported b = true)
    (hB : B ∈ currencies)
    (herr : resp B = .error e)
    (hok : ∀ b ∈ currencies, b ≠ B →
      ∃ m, resp b = .ok m ∧ (m.map Prod.fst).Nodup) :
    ((currencies.map (fetchRatesForBase resp currencies)).flatten).filter
        (fun r => r.err.isSome) =
      (currencies.filter (fun t => !(t == B))).map
        (fun t => ⟨B, t, 0, some e⟩) ∧
    (fetchAllRates resp currencies c now).2.2 =
      (currencies.filter (fun t => !(t == B))).length ∧
    (∀ q, noUnderscore q →
      mapLookup (fetchAllRates resp currencies c now).1.data
          (generateKey B q "") = mapLookup c.data (generateKey B q "")) ∧
    (∀ b ∈ currencies, b ≠ B →
      (mapLookup (fetchAllRates resp currencies c now).1.data
          (generateKey b b "")).map CacheItem.rate = some 1) ∧
    (∀ b ∈ currencies, b ≠ B → ∀ m, resp b = .ok m →
      ∀ q rq, (q, rq) ∈ m → isSupported q = true → q ≠ b →
        (mapLookup (fetchAllRates resp currencies c now).1.data
            (generateKey b q "")).map CacheItem.rate = some rq) := by
  have herrs := refresh_error_results resp hnd hB herr
    (fun b hb hbne => (hok b hb hbne).imp (fun m hm => hm.1))
  refine ⟨herrs, ?_, ?_, ?_, ?_⟩
  · show (processResults _ c now).2.2 = _
    rw [processResults_errorCount, herrs, List.length_map]
  · intro q hq
    exact refresh_lookup_failed_base resp currencies c now hsup hB herr q hq
  · intro b hb hbne
    obtain ⟨m', hm', _⟩ := hok b hb hbne
    rw [refresh_lookup_self resp currencies c now hnd hsup hb hm']
    rfl
  · intro b hb hbne m' hm' q rq hqm hqs hqb
    obtain ⟨m'', hm'', hndm⟩ := hok b hb hbne
    have h0 : (Except.ok m'' : Except String (List (String × ℚ))) =
        Except.ok m' := hm''.symm.trans hm'
    have h3 : m'' = m' := by injection h0
    subst h3
    rw [refresh_lookup_quote resp currencies c now hnd hsup hb hm'
      hndm hqm hqs hqb]
    rfl

theorem refresh_partial_failure_isolated_witness :
    (fetchAllRates
        (fun b => if b = "USD" then Except.error "api down"
          else Except.ok [("USD", (2 : ℚ))])
        SupportedCurrencies (emptyCache 100) 0).2.2 =
      (SupportedCurrencies.filter (fun t => !(t == "USD"))).length ∧
    mapLookup (fetchAllRates
        (fun b => if b = "USD" then Except.error "api down"
          else Except.ok [("USD", (2 : ℚ))])
        SupportedCurrencies (emptyCache 100) 0).1.data
      (generateKey "USD" "INR" "") =
      mapLookup (emptyCache 100).data (generateKey "USD" "INR" "") ∧
    (mapLookup (fetchAllRates
        (fun b => if b = "USD" then Except.error "api down"
          else Except.ok [("USD", (2 : ℚ))])
        SupportedCurrencies (emptyCache 100) 0).1.data
      (generateKey "EUR" "EUR" "")).map CacheItem.rate = some 1 ∧
    (mapLookup (fetchAllRates
        (fun b => if b = "USD" then Except.error "api down"
          else Except.ok [("USD", (2 : ℚ))])
        SupportedCurrencies (emptyCache 100) 0).1.data
      (generateKey "EUR" "USD" "")).map CacheItem.rate = some 2 := by
  have h := refresh_partial_failure_isolated
    (fun b => if b = "USD" then Except.error "api down"
      else Except.ok [("USD", (2 : ℚ))])
    SupportedCurrencies (emptyCache 100) 0 "USD" "api down"
    (by decide) (by decide) (by decide) rfl
    (fun b _ hbne => ⟨[("USD", (2 : ℚ))], by simp [hbne], by decide⟩)
  refine ⟨h.2.1, h.2.2.1 "INR" (by decide), h.2.2.2.1 "EUR" (by decide)
    (by decide), h.2.2.2.2 "EUR" (by decide) (by decide) [("USD", (2 : ℚ))]
    rfl "USD" 2 (by simp) (by decide) (by decide)⟩
